import Mathlib

/-!
Verification of the j4f brute-force decipher toolkit.

This file gives a shallow embedding, in Lean 4, of the candidate-generation
and ranking core of the repository:

* `modules/common.py` — the `Candidate` record, the fitness scorer and its
  helper statistics, `dedupe_and_rank`, and the character shift primitive;
* `modules/super_rot.py` — the progressive-shift transform;
* `modules/base45.py` — the RFC 9285 Base45 decoder;
* `modules/base58.py` — Base58Check checksum stripping and verification
  (with a concrete FIPS 180-4 SHA-256 model standing in for `hashlib`);
* `modules/base64.py` — the `_autopad` helper and the `_decode_once`
  dispatcher over the Base64-family decoders;
* `brute_decipher.py` — `unique_by_text`, `cap_per_algo`,
  `ensure_each_algo_top1_present`, and the ranking pipeline of `main`.

Python strings are modelled as `List Char` (or Lean `String`) with the
character-class predicates restricted to ASCII, which is the range the
toolkit manipulates; Python `float` scores are modelled as exact rationals
`ℚ`; Python `bytes` are `List Nat` with every entry below 256; fallible
decoders return `Option`.
-/

set_option maxRecDepth 8192

namespace J4f

/-! ## ASCII character model

Python's `str.islower`, `str.isupper`, `str.isalpha`, `str.isdigit`,
`str.lower`, `str.upper` restricted to ASCII code points (the only range the
toolkit's alphabets use).  They agree with Lean's own `Char.isLower` etc.,
but are phrased directly on `Char.toNat` so that all later proofs stay in
`Nat` arithmetic. -/

def py_islower (c : Char) : Bool := 97 ≤ c.toNat && c.toNat ≤ 122

def py_isupper (c : Char) : Bool := 65 ≤ c.toNat && c.toNat ≤ 90

def py_isalpha (c : Char) : Bool := py_islower c || py_isupper c

def py_isdigit (c : Char) : Bool := 48 ≤ c.toNat && c.toNat ≤ 57

def py_tolower (c : Char) : Char :=
  if py_isupper c then Char.ofNat (c.toNat + 32) else c

def py_toupper (c : Char) : Char :=
  if py_islower c then Char.ofNat (c.toNat - 32) else c

theorem py_islower_iff (c : Char) : py_islower c = true ↔ 97 ≤ c.toNat ∧ c.toNat ≤ 122 := by
  simp [py_islower]

theorem py_isupper_iff (c : Char) : py_isupper c = true ↔ 65 ≤ c.toNat ∧ c.toNat ≤ 90 := by
  simp [py_isupper]

theorem py_islower_eq_false {c : Char} (h : ¬ (97 ≤ c.toNat ∧ c.toNat ≤ 122)) :
    py_islower c = false :=
  Bool.eq_false_iff.mpr (fun hT => h ((py_islower_iff c).mp hT))

theorem py_isupper_eq_false {c : Char} (h : ¬ (65 ≤ c.toNat ∧ c.toNat ≤ 90)) :
    py_isupper c = false :=
  Bool.eq_false_iff.mpr (fun hT => h ((py_isupper_iff c).mp hT))

theorem py_isalpha_eq_false {c : Char} (hl : py_islower c = false)
    (hu : py_isupper c = false) : py_isalpha c = false := by
  simp [py_isalpha, hl, hu]

theorem lower_not_upper {c : Char} (h : py_islower c = true) : py_isupper c = false := by
  have := (py_islower_iff c).mp h
  exact py_isupper_eq_false (by omega)

theorem upper_not_lower {c : Char} (h : py_isupper c = true) : py_islower c = false := by
  have := (py_isupper_iff c).mp h
  exact py_islower_eq_false (by omega)

/-- Helper: `Char.ofNat` of a code point below the surrogate range has
exactly that code point. -/
theorem char_toNat_ofNat {n : Nat} (h : n < 55296) : (Char.ofNat n).toNat = n := by
  rw [Char.ofNat, dif_pos (Or.inl h)]
  rfl

/-! ## `shift_char` (src/modules/common.py, lines 229-232)

    def shift_char(ch: str, k: int) -> str:
        if ch.islower(): return LOW[(LOW.index(ch)+k)%26]
        if ch.isupper(): return UPP[(UPP.index(ch)+k)%26]
        return ch

For an ASCII letter, `LOW.index(ch) = ord(ch) - 97` and `LOW[m] = chr(97+m)`
(similarly with 65 for `UPP`), and Python's `%` on the positive modulus 26 is
`Int.emod`. -/

def shift_char (ch : Char) (k : Int) : Char :=
  if py_islower ch then Char.ofNat (97 + (((ch.toNat : Int) - 97 + k) % 26).toNat)
  else if py_isupper ch then Char.ofNat (65 + (((ch.toNat : Int) - 65 + k) % 26).toNat)
  else ch

theorem emod26_lt (x : Int) : (x % 26).toNat < 26 := by omega

theorem shift_char_of_lower {ch : Char} (h : py_islower ch = true) (k : Int) :
    shift_char ch k = Char.ofNat (97 + (((ch.toNat : Int) - 97 + k) % 26).toNat) := by
  simp [shift_char, h]

theorem shift_char_of_upper {ch : Char} (h : py_isupper ch = true) (k : Int) :
    shift_char ch k = Char.ofNat (65 + (((ch.toNat : Int) - 65 + k) % 26).toNat) := by
  simp [shift_char, upper_not_lower h, h]

theorem shift_char_of_not_alpha {ch : Char} (h : py_isalpha ch = false) (k : Int) :
    shift_char ch k = ch := by
  simp only [py_isalpha, Bool.or_eq_false_iff] at h
  simp [shift_char, h.1, h.2]

theorem toNat_shift_char_lower {ch : Char} (h : py_islower ch = true) (k : Int) :
    (shift_char ch k).toNat = 97 + (((ch.toNat : Int) - 97 + k) % 26).toNat := by
  rw [shift_char_of_lower h k]
  exact char_toNat_ofNat (by have := emod26_lt ((ch.toNat : Int) - 97 + k); omega)

theorem toNat_shift_char_upper {ch : Char} (h : py_isupper ch = true) (k : Int) :
    (shift_char ch k).toNat = 65 + (((ch.toNat : Int) - 65 + k) % 26).toNat := by
  rw [shift_char_of_upper h k]
  exact char_toNat_ofNat (by have := emod26_lt ((ch.toNat : Int) - 65 + k); omega)

theorem py_islower_shift_char (ch : Char) (k : Int) :
    py_islower (shift_char ch k) = py_islower ch := by
  by_cases hl : py_islower ch = true
  · have h2 := toNat_shift_char_lower hl k
    rw [hl]
    exact (py_islower_iff _).mpr (by omega)
  · have hl' : py_islower ch = false := Bool.eq_false_iff.mpr hl
    rw [hl']
    by_cases hu : py_isupper ch = true
    · have h2 := toNat_shift_char_upper hu k
      exact py_islower_eq_false (by omega)
    · rw [shift_char_of_not_alpha
        (py_isalpha_eq_false hl' (Bool.eq_false_iff.mpr hu)) k, hl']

theorem py_isupper_shift_char (ch : Char) (k : Int) :
    py_isupper (shift_char ch k) = py_isupper ch := by
  by_cases hu : py_isupper ch = true
  · have h2 := toNat_shift_char_upper hu k
    rw [hu]
    exact (py_isupper_iff _).mpr (by omega)
  · have hu' : py_isupper ch = false := Bool.eq_false_iff.mpr hu
    rw [hu']
    by_cases hl : py_islower ch = true
    · have h2 := toNat_shift_char_lower hl k
      exact py_isupper_eq_false (by omega)
    · rw [shift_char_of_not_alpha
        (py_isalpha_eq_false (Bool.eq_false_iff.mpr hl) hu') k, hu']

/-- Shifting by `k` and then by `-k` restores the character, for every `k`. -/
theorem shift_char_cancel (ch : Char) (k : Int) :
    shift_char (shift_char ch k) (-k) = ch := by
  by_cases hl : py_islower ch = true
  · have h1 : py_islower (shift_char ch k) = true := by
      rw [py_islower_shift_char]; exact hl
    have h2 := toNat_shift_char_lower hl k
    have hb := (py_islower_iff ch).mp hl
    rw [shift_char_of_lower h1 (-k), h2]
    have harg : 97 + ((((97 + (((ch.toNat : Int) - 97 + k) % 26).toNat : Nat) : Int)
        - 97 + -k) % 26).toNat = ch.toNat := by
      push_cast
      omega
    rw [harg, Char.ofNat_toNat]
  · by_cases hu : py_isupper ch = true
    · have h1 : py_isupper (shift_char ch k) = true := by
        rw [py_isupper_shift_char]; exact hu
      have h2 := toNat_shift_char_upper hu k
      have hb := (py_isupper_iff ch).mp hu
      rw [shift_char_of_upper h1 (-k), h2]
      have harg : 65 + ((((65 + (((ch.toNat : Int) - 65 + k) % 26).toNat : Nat) : Int)
          - 65 + -k) % 26).toNat = ch.toNat := by
        push_cast
        omega
      rw [harg, Char.ofNat_toNat]
    · have ha : py_isalpha ch = false :=
        py_isalpha_eq_false (Bool.eq_false_iff.mpr hl) (Bool.eq_false_iff.mpr hu)
      rw [shift_char_of_not_alpha ha k, shift_char_of_not_alpha ha (-k)]

/-! ## The progressive-shift transform (src/modules/super_rot.py, lines 31-38)

    def _progressive_transform(s: str, start=0, step=1, mode='decode', order='LTR') -> str:
        n=len(s); sign = -1 if mode=='decode' else 1
        out=[]
        for i,ch in enumerate(s):
            j = i if order=='LTR' else (n-1-i)
            k = (start + j*step) % 26
            out.append(shift_char(ch, sign*k))
        return "".join(out)
-/

def _progressive_transform (s : List Char) (start step : Int)
    (mode : String) (order : String) : List Char :=
  let n := s.length
  let sign : Int := if mode = "decode" then -1 else 1
  s.mapIdx (fun i ch =>
    let j : Int := if order = "LTR" then (i : Int) else ((n : Int) - 1 - i)
    let k := (start + j * step) % 26
    shift_char ch (sign * k))

theorem length_progressive_transform (s : List Char) (start step : Int)
    (mode order : String) :
    (_progressive_transform s start step mode order).length = s.length := by
  simp [_progressive_transform]

theorem get_progressive_transform (s : List Char) (start step : Int)
    (mode order : String) (i : Nat) (hi : i < s.length)
    (ho : i < (_progressive_transform s start step mode order).length) :
    (_progressive_transform s start step mode order).get ⟨i, ho⟩ =
      shift_char (s.get ⟨i, hi⟩)
        ((if mode = "decode" then (-1 : Int) else 1) *
          ((start + (if order = "LTR" then (i : Int) else ((s.length : Int) - 1 - i)) * step) % 26)) := by
  simp [_progressive_transform, List.get_eq_getElem, List.getElem_mapIdx]

/-- C6: the progressive-shift transform maps the character at index `i` to
that character shifted by `sign * ((start_key + j*step) mod 26)`, where
`j = i` for left-to-right order and `j = n-1-i` for right-to-left, and
`sign` is `-1` in decode mode and `+1` otherwise; only alphabetic characters
are shifted, case is preserved, and non-alphabetic characters and the string
length are unchanged. -/
theorem progressive_transform_spec (s : List Char) (start step : Int)
    (mode order : String) :
    (_progressive_transform s start step mode order).length = s.length ∧
    ∀ i (hi : i < s.length)
      (ho : i < (_progressive_transform s start step mode order).length),
      (_progressive_transform s start step mode order).get ⟨i, ho⟩ =
        shift_char (s.get ⟨i, hi⟩)
          ((if mode = "decode" then (-1 : Int) else 1) *
            ((start + (if order = "LTR" then (i : Int) else ((s.length : Int) - 1 - i)) * step) % 26)) ∧
      (py_isalpha (s.get ⟨i, hi⟩) = false →
        (_progressive_transform s start step mode order).get ⟨i, ho⟩ = s.get ⟨i, hi⟩) ∧
      py_islower ((_progressive_transform s start step mode order).get ⟨i, ho⟩) =
        py_islower (s.get ⟨i, hi⟩) ∧
      py_isupper ((_progressive_transform s start step mode order).get ⟨i, ho⟩) =
        py_isupper (s.get ⟨i, hi⟩) := by
  refine ⟨length_progressive_transform s start step mode order, ?_⟩
  intro i hi ho
  rw [get_progressive_transform s start step mode order i hi ho]
  refine ⟨rfl, ?_, py_islower_shift_char _ _, py_isupper_shift_char _ _⟩
  intro ha
  exact shift_char_of_not_alpha ha _

/-- Witness for `progressive_transform_spec`: a concrete evaluation at the
string "Hi!" with start key 1, step 2, right-to-left decoding. -/
theorem progressive_transform_spec_witness :
    (_progressive_transform ['H', 'i', '!'] 1 2 "decode" "RTL").length = 3 ∧
    (_progressive_transform ['H', 'i', '!'] 1 2 "decode" "RTL").get ⟨0, by decide⟩ = 'C' := by
  have h := progressive_transform_spec ['H', 'i', '!'] 1 2 "decode" "RTL"
  refine ⟨h.1, ?_⟩
  rw [(h.2 0 (by decide) (by decide)).1]
  decide

/-- C10: the progressive-shift transform is self-inverse across modes:
encoding and then decoding with the same start key, step and direction
returns the original string. -/
theorem progressive_transform_roundtrip (s : List Char) (start step : Int)
    (order : String) :
    _progressive_transform (_progressive_transform s start step "encode" order)
      start step "decode" order = s := by
  have len1 : (_progressive_transform s start step "encode" order).length = s.length :=
    length_progressive_transform s start step "encode" order
  apply List.ext_getElem
  · rw [length_progressive_transform, len1]
  intro i h1 h2
  have hi' : i < (_progressive_transform s start step "encode" order).length := by
    rw [len1]; exact h2
  have e1 := get_progressive_transform _ start step "decode" order i hi' h1
  have e2 := get_progressive_transform s start step "encode" order i h2 hi'
  simp only [List.get_eq_getElem] at e1 e2
  rw [e1, e2, len1, if_pos trivial, if_neg (by decide), one_mul, neg_one_mul]
  exact shift_char_cancel _ _

/-! ## Candidate and the ranking pipeline

`Candidate` is the record from src/modules/common.py (lines 119-124); the
`float` score is modelled as an exact rational. -/

structure Candidate where
  algo : String
  params : String
  text : String
  score : ℚ
deriving DecidableEq

/-- One step of the `best` dict of `dedupe_and_rank`
(src/modules/common.py, lines 219-226):

    for c in cands:
        key = c.text
        if key not in best or c.score > best[key].score:
            best[key] = c

The dict is modelled as a list of values in key-insertion order (which is
what `best.values()` later iterates); replacing a value keeps its position. -/
def updateBest (acc : List Candidate) (c : Candidate) : List Candidate :=
  if acc.any (fun x => x.text == c.text) then
    acc.map (fun x => if x.text = c.text ∧ x.score < c.score then c else x)
  else acc ++ [c]

/-- Python's `sorted(..., key=lambda x: x.score, reverse=True)` is a stable
descending sort by score; a stable sort is extensionally determined by its
comparator, so the library insertion sort with the same comparator models
it exactly. -/
def sortByScoreDesc (l : List Candidate) : List Candidate :=
  List.insertionSort (fun a b => b.score ≤ a.score) l

/-- dedupe_and_rank (src/modules/common.py, lines 219-226). -/
def dedupe_and_rank (cands : List Candidate) : List Candidate :=
  sortByScoreDesc (cands.foldl updateBest [])

/-- The loop of `cap_per_algo` (src/brute_decipher.py, lines 52-61); `kept`
models the `kept_per` counter dict (default 0). -/
def cap_per_algo_go (cap : Int) (kept : String → Int) : List Candidate → List Candidate
  | [] => []
  | c :: cs =>
    if kept c.algo < cap then
      c :: cap_per_algo_go cap (fun a => if a = c.algo then kept c.algo + 1 else kept a) cs
    else cap_per_algo_go cap kept cs

/-- cap_per_algo (src/brute_decipher.py, lines 52-61): from a ranked list,
keep up to `per_algo_cap` per algorithm, preserving order. -/
def cap_per_algo (ranked_all : List Candidate) (per_algo_cap : Int) : List Candidate :=
  cap_per_algo_go per_algo_cap (fun _ => 0) ranked_all

/-- The loop of `unique_by_text` (src/brute_decipher.py, lines 41-50);
`seen` models the seen-texts set. -/
def unique_by_text_go (seen : List String) : List Candidate → List Candidate
  | [] => []
  | x :: xs =>
    if x.text ∈ seen then unique_by_text_go seen xs
    else x :: unique_by_text_go (x.text :: seen) xs

/-- unique_by_text (src/brute_decipher.py, lines 41-50): dedupe by plaintext
text, keeping first occurrences. -/
def unique_by_text (items : List Candidate) : List Candidate :=
  unique_by_text_go [] items

/-- One step of the bucketing loop of `main` (src/brute_decipher.py,
lines 134-136):

    buckets.setdefault(c.algo, []).append(c)

The insertion-ordered dict is a list of (algo, bucket) pairs. -/
def addToBuckets (bs : List (String × List Candidate)) (c : Candidate) :
    List (String × List Candidate) :=
  if bs.any (fun p => p.1 == c.algo) then
    bs.map (fun p => if p.1 = c.algo then (p.1, p.2 ++ [c]) else p)
  else bs ++ [(c.algo, [c])]

def buckets (ranked_all : List Candidate) : List (String × List Candidate) :=
  ranked_all.foldl addToBuckets []

/-- ensure_each_algo_top1_present (src/brute_decipher.py, lines 63-74).
The source removes the seeds from `current` by object identity
(`id(c) not in seed_ids`); in the pipeline both `current` and the seeds are
elements of the text-deduped `ranked_all`, on which object identity
coincides with text equality, so the identity filter is modelled by the
text filter.  (The unused `top_k` parameter of the source is dropped.) -/
def ensure_each_algo_top1_present (bs : List (String × List Candidate))
    (current : List Candidate) : List Candidate :=
  let seeds := bs.filterMap (fun p => p.2.head?)
  let rest := current.filter (fun c => !(seeds.any (fun s => s.text == c.text)))
  unique_by_text (sortByScoreDesc seeds ++ rest)

/-- The ranking pipeline of `main` (src/brute_decipher.py, lines 130-149):
global text-dedupe and sort, bucketing, per-algorithm cap, optional
diversity promotion. -/
def rank_pipeline (per_algo_cap : Int) (promote : Bool)
    (results : List Candidate) : List Candidate :=
  let ranked_all := dedupe_and_rank results
  let bs := buckets ranked_all
  let capped := if 0 < per_algo_cap then cap_per_algo ranked_all per_algo_cap else ranked_all
  if promote && !capped.isEmpty then ensure_each_algo_top1_present bs capped else capped

/-! ### Lemmas about dedupe and rank -/

def TextsNodup (l : List Candidate) : Prop := (l.map (fun c => c.text)).Nodup

instance : IsTotal Candidate (fun a b => b.score ≤ a.score) :=
  ⟨fun a b => le_total b.score a.score⟩

instance : IsTrans Candidate (fun a b => b.score ≤ a.score) :=
  ⟨fun _ _ _ h1 h2 => le_trans h2 h1⟩

theorem sorted_sortByScoreDesc (l : List Candidate) :
    List.Sorted (fun a b => b.score ≤ a.score) (sortByScoreDesc l) :=
  List.sorted_insertionSort _ l

theorem perm_sortByScoreDesc (l : List Candidate) :
    (sortByScoreDesc l).Perm l :=
  List.perm_insertionSort _ l

theorem sortByScoreDesc_of_sorted {l : List Candidate}
    (h : List.Sorted (fun a b => b.score ≤ a.score) l) : sortByScoreDesc l = l :=
  List.Sorted.insertionSort_eq h

theorem textsNodup_updateBest {acc : List Candidate} (c : Candidate)
    (h : TextsNodup acc) : TextsNodup (updateBest acc c) := by
  unfold updateBest
  by_cases hin : acc.any (fun x => x.text == c.text) = true
  · rw [if_pos hin]
    unfold TextsNodup
    rw [List.map_map]
    have : acc.map ((fun c => c.text) ∘ fun x =>
        if x.text = c.text ∧ x.score < c.score then c else x) = acc.map (fun c => c.text) := by
      apply List.map_congr_left
      intro a _
      by_cases hc : a.text = c.text ∧ a.score < c.score
      · simp [Function.comp, hc, hc.1]
      · simp [Function.comp, hc]
    rw [this]
    exact h
  · rw [if_neg hin]
    unfold TextsNodup
    rw [List.map_append]
    have hni : c.text ∉ acc.map (fun c => c.text) := by
      intro hmem
      obtain ⟨x, hx, hq⟩ := List.mem_map.mp hmem
      apply hin
      rw [List.any_eq_true]
      exact ⟨x, hx, beq_iff_eq.mpr hq⟩
    refine List.Nodup.append h (by simp) ?_
    intro a ha hb
    rw [List.map_cons, List.map_nil, List.mem_singleton] at hb
    exact hni (hb ▸ ha)

theorem textsNodup_foldl_updateBest (l : List Candidate) :
    ∀ acc, TextsNodup acc → TextsNodup (l.foldl updateBest acc) := by
  induction l with
  | nil => intro acc h; exact h
  | cons c cs ih =>
    intro acc h
    exact ih _ (textsNodup_updateBest c h)

theorem updateBest_of_fresh {acc : List Candidate} {c : Candidate}
    (h : c.text ∉ acc.map (fun c => c.text)) : updateBest acc c = acc ++ [c] := by
  have hany : acc.any (fun x => x.text == c.text) = false := by
    rw [List.any_eq_false]
    intro x hx
    simp only [beq_iff_eq]
    intro hq
    exact h (hq ▸ List.mem_map_of_mem _ hx)
  simp [updateBest, hany]

theorem foldl_updateBest_of_fresh (l : List Candidate) :
    ∀ acc, (acc.map (fun c => c.text) ++ l.map (fun c => c.text)).Nodup →
      l.foldl updateBest acc = acc ++ l := by
  induction l with
  | nil => intro acc _; simp
  | cons c cs ih =>
    intro acc h
    rw [List.map_cons] at h
    obtain ⟨h1, h2, h3⟩ := List.nodup_append.mp h
    have hfresh : c.text ∉ acc.map (fun c => c.text) := fun hmem =>
      h3 hmem (List.mem_cons_self _ _)
    rw [List.foldl_cons, updateBest_of_fresh hfresh]
    have heq : ((acc ++ [c]).map (fun c => c.text) ++ cs.map (fun c => c.text)) =
        (acc.map (fun c => c.text) ++ (c.text :: cs.map (fun c => c.text))) := by
      simp
    rw [ih (acc ++ [c]) (by rw [heq]; exact h)]
    simp

/-- The accumulated dict values of `dedupe_and_rank` have pairwise-distinct
texts, and so does its final (sorted) output. -/
theorem textsNodup_dedupe_and_rank (cands : List Candidate) :
    TextsNodup (dedupe_and_rank cands) := by
  have h1 : TextsNodup (cands.foldl updateBest []) :=
    textsNodup_foldl_updateBest cands [] (by simp [TextsNodup])
  have h2 := perm_sortByScoreDesc (cands.foldl updateBest [])
  unfold TextsNodup at h1 ⊢
  exact ((h2.map (fun c => c.text)).nodup_iff).mpr h1

/-- C7: the dedupe-and-rank step is idempotent. -/
theorem dedupe_and_rank_idem (cands : List Candidate) :
    dedupe_and_rank (dedupe_and_rank cands) = dedupe_and_rank cands := by
  have hnd : TextsNodup (dedupe_and_rank cands) := textsNodup_dedupe_and_rank cands
  have h1 : (dedupe_and_rank cands).foldl updateBest [] = dedupe_and_rank cands := by
    have := foldl_updateBest_of_fresh (dedupe_and_rank cands) []
    simpa using this (by simpa [TextsNodup] using hnd)
  show sortByScoreDesc ((dedupe_and_rank cands).foldl updateBest []) = dedupe_and_rank cands
  rw [h1]
  exact sortByScoreDesc_of_sorted (List.sorted_insertionSort _ _)

/-! ### Lemmas about the per-strategy cap -/

theorem cap_per_algo_go_sublist (cap : Int) (l : List Candidate) :
    ∀ kept, (cap_per_algo_go cap kept l).Sublist l := by
  induction l with
  | nil => intro kept; simp [cap_per_algo_go]
  | cons c cs ih =>
    intro kept
    unfold cap_per_algo_go
    by_cases h : kept c.algo < cap
    · rw [if_pos h]; exact (ih _).cons₂ c
    · rw [if_neg h]; exact (ih _).cons c

theorem cap_per_algo_go_count (cap : Int) (a : String) (l : List Candidate) :
    ∀ kept, kept a + (List.countP (fun c => c.algo == a) (cap_per_algo_go cap kept l) : Int)
        ≤ cap ∨
      (cap ≤ kept a ∧ List.countP (fun c => c.algo == a) (cap_per_algo_go cap kept l) = 0) := by
  induction l with
  | nil =>
    intro kept
    simp only [cap_per_algo_go, List.countP_nil, Nat.cast_zero, add_zero]
    by_cases h : cap ≤ kept a
    · exact Or.inr ⟨h, by trivial⟩
    · exact Or.inl (by omega)
  | cons c cs ih =>
    intro kept
    unfold cap_per_algo_go
    by_cases h : kept c.algo < cap
    · rw [if_pos h, List.countP_cons]
      by_cases ha : c.algo = a
      · subst ha
        have hih := ih (fun b => if b = c.algo then kept c.algo + 1 else kept b)
        rw [if_pos rfl] at hih
        simp only [beq_self_eq_true, if_pos rfl]
        rcases hih with hih | hih
        · left; push_cast; omega
        · left; push_cast; omega
      · have hne : ¬ (a = c.algo) := fun hq => ha hq.symm
        have hih := ih (fun b => if b = c.algo then kept c.algo + 1 else kept b)
        rw [if_neg hne] at hih
        have hbeq : (c.algo == a) = false := beq_eq_false_iff_ne.mpr ha
        rw [hbeq]
        simpa using hih
    · rw [if_neg h]
      exact ih kept

/-- C8: for every globally sorted candidate list and per-strategy cap
`c > 0`, the capped list contains at most `c` candidates per strategy name
and is an order-preserving subsequence of the input. -/
theorem cap_per_algo_spec (ranked : List Candidate) (cap : Int)
    (_hsorted : List.Sorted (fun a b => b.score ≤ a.score) ranked) (hcap : 0 < cap) :
    (∀ a : String, ((cap_per_algo ranked cap).countP (fun c => c.algo == a) : Int) ≤ cap) ∧
    (cap_per_algo ranked cap).Sublist ranked := by
  constructor
  · intro a
    have h := cap_per_algo_go_count cap a ranked (fun _ => 0)
    unfold cap_per_algo
    rcases h with h | h
    · omega
    · rw [h.2]
      omega
  · exact cap_per_algo_go_sublist cap ranked _

/-- Witness for `cap_per_algo_spec`: two same-strategy candidates, cap 1. -/
theorem cap_per_algo_spec_witness :
    ((cap_per_algo [⟨"x", "p", "t1", 3⟩, ⟨"x", "p", "t2", 2⟩] 1).countP
        (fun c => c.algo == "x") : Int) ≤ 1 ∧
    (cap_per_algo [⟨"x", "p", "t1", 3⟩, ⟨"x", "p", "t2", 2⟩] 1).Sublist
      [⟨"x", "p", "t1", 3⟩, ⟨"x", "p", "t2", 2⟩] := by
  have h := cap_per_algo_spec [⟨"x", "p", "t1", 3⟩, ⟨"x", "p", "t2", 2⟩] 1
    (by decide) (by decide)
  exact ⟨h.1 "x", h.2⟩

/-! ### Lemmas about bucketing and diversity promotion -/

theorem map_fst_addToBuckets (bs : List (String × List Candidate)) (c : Candidate) :
    (addToBuckets bs c).map Prod.fst =
      if bs.any (fun p => p.1 == c.algo) then bs.map Prod.fst
      else bs.map Prod.fst ++ [c.algo] := by
  unfold addToBuckets
  by_cases h : bs.any (fun p => p.1 == c.algo) = true
  · rw [if_pos h, if_pos h, List.map_map]
    apply List.map_congr_left
    intro p _
    by_cases hp : p.1 = c.algo
    · simp [hp]
    · simp [hp]
  · rw [if_neg h, if_neg h]
    simp

theorem nodup_names_foldl_addToBuckets (l : List Candidate) :
    ∀ bs, (bs.map Prod.fst).Nodup →
      ((l.foldl addToBuckets bs).map Prod.fst).Nodup := by
  induction l with
  | nil => intro bs h; exact h
  | cons c cs ih =>
    intro bs h
    rw [List.foldl_cons]
    apply ih
    rw [map_fst_addToBuckets]
    by_cases hin : bs.any (fun p => p.1 == c.algo) = true
    · rw [if_pos hin]; exact h
    · rw [if_neg hin]
      apply List.Nodup.append h (by simp)
      intro a ha hb
      rw [List.mem_singleton] at hb
      subst hb
      apply hin
      rw [List.any_eq_true]
      obtain ⟨p, hp, hfst⟩ := List.mem_map.mp ha
      exact ⟨p, hp, beq_iff_eq.mpr hfst⟩

theorem mem_names_foldl_addToBuckets (l : List Candidate) (a : String) :
    ∀ bs, (a ∈ (l.foldl addToBuckets bs).map Prod.fst ↔
      a ∈ bs.map Prod.fst ∨ a ∈ l.map (fun c => c.algo)) := by
  induction l with
  | nil => intro bs; simp
  | cons c cs ih =>
    intro bs
    rw [List.foldl_cons, ih (addToBuckets bs c), map_fst_addToBuckets]
    by_cases hin : bs.any (fun p => p.1 == c.algo) = true
    · rw [if_pos hin]
      have hc : c.algo ∈ bs.map Prod.fst := by
        obtain ⟨p, hp, hq⟩ := List.any_eq_true.mp hin
        rw [beq_iff_eq] at hq
        exact hq ▸ List.mem_map_of_mem _ hp
      simp only [List.map_cons, List.mem_cons]
      constructor
      · rintro (h | h)
        · exact Or.inl h
        · exact Or.inr (Or.inr h)
      · rintro (h | h | h)
        · exact Or.inl h
        · exact Or.inl (h ▸ hc)
        · exact Or.inr h
    · rw [if_neg hin]
      simp only [List.mem_append, List.mem_singleton, List.map_cons, List.mem_cons]
      tauto

/-- Invariant of the bucket dict: each bucket is nonempty, holds only
candidates of its own algorithm, and draws them from `univ`. -/
def BucketsInv (univ : List Candidate) (bs : List (String × List Candidate)) : Prop :=
  ∀ p ∈ bs, p.2 ≠ [] ∧ ∀ x ∈ p.2, x.algo = p.1 ∧ x ∈ univ

theorem bucketsInv_addToBuckets {univ : List Candidate}
    {bs : List (String × List Candidate)} {c : Candidate}
    (h : BucketsInv univ bs) (hc : c ∈ univ) : BucketsInv univ (addToBuckets bs c) := by
  unfold addToBuckets
  by_cases hin : bs.any (fun p => p.1 == c.algo) = true
  · rw [if_pos hin]
    intro p hp
    obtain ⟨q, hq, hpq⟩ := List.mem_map.mp hp
    by_cases hqa : q.1 = c.algo
    · rw [if_pos hqa] at hpq
      subst hpq
      refine ⟨by simp, ?_⟩
      intro x hx
      rw [List.mem_append, List.mem_singleton] at hx
      rcases hx with hx | hx
      · exact (h q hq).2 x hx
      · subst hx
        exact ⟨hqa.symm, hc⟩
    · rw [if_neg hqa] at hpq
      subst hpq
      exact h q hq
  · rw [if_neg hin]
    intro p hp
    rw [List.mem_append, List.mem_singleton] at hp
    rcases hp with hp | hp
    · exact h p hp
    · subst hp
      refine ⟨by simp, ?_⟩
      intro x hx
      rw [List.mem_singleton] at hx
      subst hx
      exact ⟨rfl, hc⟩

theorem bucketsInv_foldl (univ : List Candidate) (l : List Candidate) :
    ∀ bs, BucketsInv univ bs → (∀ x ∈ l, x ∈ univ) →
      BucketsInv univ (l.foldl addToBuckets bs) := by
  induction l with
  | nil => intro bs h _; exact h
  | cons c cs ih =>
    intro bs h hl
    rw [List.foldl_cons]
    exact ih _ (bucketsInv_addToBuckets h (hl c (List.mem_cons_self _ _)))
      (fun x hx => hl x (List.mem_cons_of_mem _ hx))

theorem bucketsInv_buckets (r : List Candidate) : BucketsInv r (buckets r) :=
  bucketsInv_foldl r r [] (fun p hp => absurd hp (List.not_mem_nil p)) (fun _ hx => hx)

theorem seeds_map_algo {univ : List Candidate} :
    ∀ bs, BucketsInv univ bs →
      (bs.filterMap (fun p => p.2.head?)).map (fun c => c.algo) = bs.map Prod.fst := by
  intro bs
  induction bs with
  | nil => intro _; simp
  | cons p rest ih =>
    intro h
    obtain ⟨hne, helem⟩ := h p (List.mem_cons_self _ _)
    rw [List.filterMap_cons]
    cases hpl : p.2 with
    | nil => exact absurd hpl hne
    | cons x xs =>
      simp only [List.head?_cons]
      rw [List.map_cons, List.map_cons]
      rw [ih (fun q hq => h q (List.mem_cons_of_mem _ hq))]
      have hx : x ∈ p.2 := by rw [hpl]; exact List.mem_cons_self _ _
      rw [(helem x hx).1]

theorem seeds_mem_univ {univ : List Candidate} {bs : List (String × List Candidate)}
    (h : BucketsInv univ bs) :
    ∀ s ∈ bs.filterMap (fun p => p.2.head?), s ∈ univ := by
  intro s hs
  obtain ⟨p, hp, hhead⟩ := List.mem_filterMap.mp hs
  have hsp : s ∈ p.2 := by
    cases hpl : p.2 with
    | nil => rw [hpl] at hhead; exact absurd hhead (by simp)
    | cons x xs =>
      rw [hpl] at hhead
      simp only [List.head?_cons, Option.some_inj] at hhead
      subst hhead
      exact List.mem_cons_self _ _
  exact ((h p hp).2 s hsp).2

theorem unique_by_text_go_cons (seen : List String) (x : Candidate) (xs : List Candidate) :
    unique_by_text_go seen (x :: xs) =
      if x.text ∈ seen then unique_by_text_go seen xs
      else x :: unique_by_text_go (x.text :: seen) xs := rfl

theorem unique_by_text_go_append (B : List Candidate) :
    ∀ (A : List Candidate) (seen : List String),
      (∀ x ∈ A, x.text ∉ seen) → TextsNodup A →
      ∃ seen2, unique_by_text_go seen (A ++ B) = A ++ unique_by_text_go seen2 B := by
  intro A
  induction A with
  | nil => intro seen _ _; exact ⟨seen, rfl⟩
  | cons x xs ih =>
    intro seen hfresh hnd
    rw [List.cons_append, unique_by_text_go_cons]
    rw [if_neg (hfresh x (List.mem_cons_self _ _))]
    unfold TextsNodup at hnd
    rw [List.map_cons, List.nodup_cons] at hnd
    have hfresh2 : ∀ y ∈ xs, y.text ∉ (x.text :: seen) := by
      intro y hy
      rw [List.mem_cons]
      rintro (h | h)
      · exact hnd.1 (h ▸ List.mem_map_of_mem _ hy)
      · exact hfresh y (List.mem_cons_of_mem _ hy) h
    obtain ⟨seen2, hs⟩ := ih (x.text :: seen) hfresh2 hnd.2
    refine ⟨seen2, ?_⟩
    rw [hs, List.cons_append]

/-! ### Nonemptiness lemmas -/

theorem length_le_updateBest (acc : List Candidate) (c : Candidate) :
    acc.length ≤ (updateBest acc c).length := by
  unfold updateBest
  by_cases h : acc.any (fun x => x.text == c.text) = true
  · rw [if_pos h]; simp
  · rw [if_neg h]; simp

theorem length_le_foldl_updateBest (l : List Candidate) :
    ∀ acc : List Candidate, acc.length ≤ (l.foldl updateBest acc).length := by
  induction l with
  | nil => intro acc; simp
  | cons c cs ih =>
    intro acc
    rw [List.foldl_cons]
    exact le_trans (length_le_updateBest acc c) (ih _)

theorem dedupe_and_rank_ne_nil {results : List Candidate} (h : results ≠ []) :
    dedupe_and_rank results ≠ [] := by
  obtain ⟨c, cs, rfl⟩ := List.exists_cons_of_ne_nil h
  unfold dedupe_and_rank
  intro hq
  have hperm := perm_sortByScoreDesc ((c :: cs).foldl updateBest [])
  rw [hq] at hperm
  have hnil : (c :: cs).foldl updateBest [] = [] := (hperm.symm).eq_nil
  have h1 : updateBest ([] : List Candidate) c = [c] := by simp [updateBest]
  have h2 : (1 : Nat) ≤ ((c :: cs).foldl updateBest []).length := by
    rw [List.foldl_cons, h1]
    exact length_le_foldl_updateBest cs [c]
  rw [hnil] at h2
  simp at h2

theorem cap_per_algo_ne_nil {r : List Candidate} (h : r ≠ []) {cap : Int}
    (hcap : 0 < cap) : cap_per_algo r cap ≠ [] := by
  obtain ⟨c, cs, rfl⟩ := List.exists_cons_of_ne_nil h
  simp only [cap_per_algo, cap_per_algo_go]
  rw [if_pos hcap]
  simp

theorem rank_pipeline_promote_eq (cap : Int) (results : List Candidate)
    (hcapne : (if 0 < cap then cap_per_algo (dedupe_and_rank results) cap
        else dedupe_and_rank results) ≠ []) :
    rank_pipeline cap true results =
      ensure_each_algo_top1_present (buckets (dedupe_and_rank results))
        (if 0 < cap then cap_per_algo (dedupe_and_rank results) cap
          else dedupe_and_rank results) := by
  have hb : (if 0 < cap then cap_per_algo (dedupe_and_rank results) cap
      else dedupe_and_rank results).isEmpty = false := by
    cases hE : (if 0 < cap then cap_per_algo (dedupe_and_rank results) cap
        else dedupe_and_rank results).isEmpty
    · rfl
    · exact absurd (List.isEmpty_iff.mp hE) hcapne
  simp only [rank_pipeline, hb, Bool.not_false, Bool.and_true, if_true, Bool.true_and]

/-- C1: when promotion is enabled and at least one strategy produced at
least one candidate, the first `S` entries of the final pipeline output
(`S` = number of distinct strategy names present after deduplication)
contain exactly one candidate per such strategy, and those entries are
sorted descending by score among themselves. -/
theorem rank_pipeline_diversity (results : List Candidate) (cap : Int)
    (hne : results ≠ []) :
    List.Perm
      (((rank_pipeline cap true results).take
          (((dedupe_and_rank results).map (fun c => c.algo)).dedup.length)).map
        (fun c => c.algo))
      (((dedupe_and_rank results).map (fun c => c.algo)).dedup) ∧
    List.Sorted (fun a b : Candidate => b.score ≤ a.score)
      ((rank_pipeline cap true results).take
        (((dedupe_and_rank results).map (fun c => c.algo)).dedup.length)) := by
  have hrne : dedupe_and_rank results ≠ [] := dedupe_and_rank_ne_nil hne
  set r := dedupe_and_rank results with hrdef
  have hTN : TextsNodup r := textsNodup_dedupe_and_rank results
  set capped := if 0 < cap then cap_per_algo r cap else r with hcdef
  have hcapne : capped ≠ [] := by
    rw [hcdef]
    by_cases h : 0 < cap
    · rw [if_pos h]; exact cap_per_algo_ne_nil hrne h
    · rw [if_neg h]; exact hrne
  have hpipe : rank_pipeline cap true results =
      ensure_each_algo_top1_present (buckets r) capped :=
    rank_pipeline_promote_eq cap results hcapne
  set bs := buckets r with hbs
  set seeds := bs.filterMap (fun p => p.2.head?) with hseeds
  set A := sortByScoreDesc seeds with hA
  set rest := capped.filter (fun c => !(seeds.any (fun s => s.text == c.text))) with hrest
  have hEq : ensure_each_algo_top1_present bs capped = unique_by_text (A ++ rest) := rfl
  have hInv : BucketsInv r bs := bucketsInv_buckets r
  have hnames : seeds.map (fun c => c.algo) = bs.map Prod.fst := seeds_map_algo bs hInv
  have hnodupNames : (bs.map Prod.fst).Nodup := by
    rw [hbs]
    exact nodup_names_foldl_addToBuckets r [] (by simp)
  have hseedsND : seeds.Nodup := List.Nodup.of_map _ (hnames ▸ hnodupNames)
  have hseedsMem : ∀ s ∈ seeds, s ∈ r := seeds_mem_univ hInv
  have hseedsTN : TextsNodup seeds := by
    unfold TextsNodup
    refine List.Nodup.map_on ?_ hseedsND
    intro x hx y hy hq
    exact List.inj_on_of_nodup_map hTN (hseedsMem x hx) (hseedsMem y hy) hq
  have hATN : TextsNodup A := by
    unfold TextsNodup at hseedsTN ⊢
    exact ((perm_sortByScoreDesc seeds).map (fun c => c.text)).nodup_iff.mpr hseedsTN
  obtain ⟨seen2, hsplit⟩ := unique_by_text_go_append rest A [] (by simp) hATN
  have hfinal : rank_pipeline cap true results = A ++ unique_by_text_go seen2 rest := by
    rw [hpipe, hEq]
    unfold unique_by_text
    exact hsplit
  have hpermNames : (bs.map Prod.fst).Perm ((r.map (fun c => c.algo)).dedup) := by
    rw [List.perm_ext_iff_of_nodup hnodupNames (List.nodup_dedup _)]
    intro a
    rw [List.mem_dedup, hbs]
    have := mem_names_foldl_addToBuckets r a []
    simp only [List.map_nil, List.not_mem_nil, false_or] at this
    exact this
  have hAlen : A.length = ((r.map (fun c => c.algo)).dedup).length := by
    have h1 : A.length = seeds.length := (perm_sortByScoreDesc seeds).length_eq
    have h2 : seeds.length = (bs.map Prod.fst).length := by
      rw [← hnames, List.length_map]
    rw [h1, h2, hpermNames.length_eq]
  have htake : (rank_pipeline cap true results).take
      (((r.map (fun c => c.algo)).dedup).length) = A := by
    rw [hfinal, ← hAlen, List.take_left]
  constructor
  · rw [htake]
    refine List.Perm.trans ((perm_sortByScoreDesc seeds).map (fun c => c.algo)) ?_
    rw [hnames]
    exact hpermNames
  · rw [htake]
    exact sorted_sortByScoreDesc seeds

/-- Witness for `rank_pipeline_diversity`: two strategies with one candidate
each; the promoted head entries are one per strategy, sorted by score. -/
theorem rank_pipeline_diversity_witness :
    List.Perm
      (((rank_pipeline 5 true [⟨"a", "p", "t1", 1⟩, ⟨"b", "q", "t2", 2⟩]).take
          (((dedupe_and_rank [⟨"a", "p", "t1", 1⟩, ⟨"b", "q", "t2", 2⟩]).map
            (fun c => c.algo)).dedup.length)).map (fun c => c.algo))
      (((dedupe_and_rank [⟨"a", "p", "t1", 1⟩, ⟨"b", "q", "t2", 2⟩]).map
        (fun c => c.algo)).dedup) ∧
    List.Sorted (fun a b : Candidate => b.score ≤ a.score)
      ((rank_pipeline 5 true [⟨"a", "p", "t1", 1⟩, ⟨"b", "q", "t2", 2⟩]).take
        (((dedupe_and_rank [⟨"a", "p", "t1", 1⟩, ⟨"b", "q", "t2", 2⟩]).map
          (fun c => c.algo)).dedup.length)) :=
  rank_pipeline_diversity [⟨"a", "p", "t1", 1⟩, ⟨"b", "q", "t2", 2⟩] 5 (by decide)

/-! ## Base45 (src/modules/base45.py)

    ALPHABET = "0123456789ABCDEFGHIJKLMNOPQRSTUVWXYZ $%*+-./:"
    A2I = {c:i for i,c in enumerate(ALPHABET)}

    def b45decode(s: str) -> bytes:
        vals = [A2I[c] for c in s]  # KeyError -> invalid char
        out = bytearray()
        i = 0
        L = len(vals)
        while i < L:
            if i+2 < L:
                v = vals[i] + 45*vals[i+1] + 45*45*vals[i+2]
                if v > 0xFFFF: raise ValueError("base45: value out of range")
                out.append(v // 256)
                out.append(v % 256)
                i += 3
            elif i+1 < L:
                v = vals[i] + 45*vals[i+1]
                if v > 0xFF: raise ValueError("base45: value out of range")
                out.append(v)
                i += 2
            else:
                raise ValueError("base45: dangling char")
        return bytes(out)

The `while` loop consumes aligned groups of 3 from the front (a final pair
becomes the `elif`, a final single symbol the `else`), which is the
structural recursion of `b45groups`. -/

def B45_ALPHABET : List Char := "0123456789ABCDEFGHIJKLMNOPQRSTUVWXYZ $%*+-./:".data

def A2I (c : Char) : Option Nat := B45_ALPHABET.findIdx? (fun x => x == c)

/-- The list comprehension `[A2I[c] for c in s]`: `none` on the first
character outside the alphabet. -/
def b45vals : List Char → Option (List Nat)
  | [] => some []
  | c :: cs =>
    match A2I c, b45vals cs with
    | some v, some vs => some (v :: vs)
    | _, _ => none

def b45groups : List Nat → Option (List Nat)
  | [] => some []
  | [_] => none
  | [x, y] => if 255 < x + 45 * y then none else some [x + 45 * y]
  | x :: y :: z :: rest =>
    if 65535 < x + 45 * y + 45 * 45 * z then none
    else
      match b45groups rest with
      | none => none
      | some out => some ((x + 45 * y + 45 * 45 * z) / 256 ::
          (x + 45 * y + 45 * 45 * z) % 256 :: out)

def b45decode (s : List Char) : Option (List Nat) :=
  match b45vals s with
  | none => none
  | some vals => b45groups vals

/-- The value of the aligned group of 3 symbols starting at index `3*k`. -/
def tripleVal (v : List Nat) (k : Nat) : Nat :=
  v.getD (3 * k) 0 + 45 * v.getD (3 * k + 1) 0 + 45 * 45 * v.getD (3 * k + 2) 0

/-- The value of the trailing group of 2 symbols. -/
def pairValTail (v : List Nat) : Nat :=
  v.getD (v.length - 2) 0 + 45 * v.getD (v.length - 1) 0

/-- Modelled from the claim and RFC 9285: the expected output, two bytes
per group of 3 symbols and one byte for a trailing group of 2. -/
def b45bytes : List Nat → List Nat
  | [] => []
  | [_] => []
  | [x, y] => [x + 45 * y]
  | x :: y :: z :: rest => (x + 45 * y + 45 * 45 * z) / 256 ::
      (x + 45 * y + 45 * 45 * z) % 256 :: b45bytes rest

theorem list_triple_induction {α : Type} {P : List α → Prop} (h0 : P [])
    (h1 : ∀ a, P [a]) (h2 : ∀ a b, P [a, b])
    (h3 : ∀ a b c l, P l → P (a :: b :: c :: l)) : ∀ l, P l
  | [] => h0
  | [a] => h1 a
  | [a, b] => h2 a b
  | a :: b :: c :: l => h3 a b c l (list_triple_induction h0 h1 h2 h3 l)

theorem getD_cons3 (x y z : Nat) (rest : List Nat) (n : Nat) :
    (x :: y :: z :: rest).getD (n + 3) 0 = rest.getD n 0 := rfl

theorem tripleVal_cons (x y z : Nat) (rest : List Nat) (k : Nat) :
    tripleVal (x :: y :: z :: rest) (k + 1) = tripleVal rest k := by
  unfold tripleVal
  rw [show 3 * (k + 1) = 3 * k + 3 by ring,
    show 3 * k + 3 + 1 = (3 * k + 1) + 3 by ring,
    show 3 * k + 3 + 2 = (3 * k + 2) + 3 by ring,
    getD_cons3, getD_cons3, getD_cons3]

theorem tripleVal_zero (x y z : Nat) (rest : List Nat) :
    tripleVal (x :: y :: z :: rest) 0 = x + 45 * y + 45 * 45 * z := rfl

theorem pairValTail_cons (x y z : Nat) (rest : List Nat) (h : 2 ≤ rest.length) :
    pairValTail (x :: y :: z :: rest) = pairValTail rest := by
  unfold pairValTail
  have h1 : (x :: y :: z :: rest).length - 2 = (rest.length - 2) + 3 := by
    simp only [List.length_cons]; omega
  have h2 : (x :: y :: z :: rest).length - 1 = (rest.length - 1) + 3 := by
    simp only [List.length_cons]; omega
  rw [h1, h2, getD_cons3, getD_cons3]

theorem b45groups_spec (v : List Nat) :
    (b45groups v = none ↔
      v.length % 3 = 1 ∨ (∃ k, 3 * k + 2 < v.length ∧ 65535 < tripleVal v k) ∨
      (v.length % 3 = 2 ∧ 255 < pairValTail v)) ∧
    (∀ out, b45groups v = some out →
      out = b45bytes v ∧
      out.length = 2 * (v.length / 3) + (if v.length % 3 = 2 then 1 else 0)) := by
  induction v using list_triple_induction with
  | h0 =>
    constructor
    · simp [b45groups]
    · intro out hout
      simp only [b45groups, Option.some_inj] at hout
      subst hout
      simp [b45bytes]
  | h1 a =>
    constructor
    · simp [b45groups]
    · intro out hout
      simp [b45groups] at hout
  | h2 a b =>
    constructor
    · constructor
      · intro hout
        by_cases hv : 255 < a + 45 * b
        · exact Or.inr (Or.inr ⟨by simp, by simpa [pairValTail] using hv⟩)
        · simp [b45groups, if_neg hv] at hout
      · intro hcond
        rcases hcond with h | ⟨k, hk, _⟩ | ⟨_, hv⟩
        · simp at h
        · simp only [List.length_cons, List.length_nil] at hk
          omega
        · simp [pairValTail] at hv
          simp [b45groups, if_pos hv]
    · intro out hout
      by_cases hv : 255 < a + 45 * b
      · simp [b45groups, if_pos hv] at hout
      · simp only [b45groups, if_neg hv, Option.some_inj] at hout
        subst hout
        simp [b45bytes]
  | h3 x y z rest ih =>
    have hlen : (x :: y :: z :: rest).length = rest.length + 3 := by simp
    have hmod : (x :: y :: z :: rest).length % 3 = rest.length % 3 := by
      rw [hlen, Nat.add_mod_right]
    have hdiv : (x :: y :: z :: rest).length / 3 = rest.length / 3 + 1 := by
      rw [hlen, Nat.add_div_right _ (by omega)]
    constructor
    · constructor
      · intro hout
        by_cases hv : 65535 < x + 45 * y + 45 * 45 * z
        · refine Or.inr (Or.inl ⟨0, ?_, ?_⟩)
          · rw [hlen]; omega
          · rw [tripleVal_zero]; exact hv
        · rw [show b45groups (x :: y :: z :: rest) =
              (match b45groups rest with
                | none => none
                | some out => some ((x + 45 * y + 45 * 45 * z) / 256 ::
                    (x + 45 * y + 45 * 45 * z) % 256 :: out)) by
              simp [b45groups, if_neg hv]] at hout
          have hrest : b45groups rest = none := by
            cases hr : b45groups rest with
            | none => rfl
            | some o => rw [hr] at hout; simp at hout
          rcases ih.1.mp hrest with h | ⟨k, hk, hkv⟩ | ⟨hm, hp⟩
          · exact Or.inl (by rw [hmod]; exact h)
          · refine Or.inr (Or.inl ⟨k + 1, ?_, ?_⟩)
            · rw [hlen]; omega
            · rw [tripleVal_cons]; exact hkv
          · refine Or.inr (Or.inr ⟨by rw [hmod]; exact hm, ?_⟩)
            rw [pairValTail_cons x y z rest (by omega)]
            exact hp
      · intro hcond
        by_cases hv : 65535 < x + 45 * y + 45 * 45 * z
        · simp [b45groups, if_pos hv]
        · rw [show b45groups (x :: y :: z :: rest) =
              (match b45groups rest with
                | none => none
                | some out => some ((x + 45 * y + 45 * 45 * z) / 256 ::
                    (x + 45 * y + 45 * 45 * z) % 256 :: out)) by
              simp [b45groups, if_neg hv]]
          have hrest : b45groups rest = none := by
            apply ih.1.mpr
            rcases hcond with h | ⟨k, hk, hkv⟩ | ⟨hm, hp⟩
            · exact Or.inl (by rw [hmod] at h; exact h)
            · cases k with
              | zero =>
                rw [tripleVal_zero] at hkv
                exact absurd hkv hv
              | succ k2 =>
                refine Or.inr (Or.inl ⟨k2, ?_, ?_⟩)
                · rw [hlen] at hk; omega
                · rw [tripleVal_cons] at hkv; exact hkv
            · rw [hmod] at hm
              refine Or.inr (Or.inr ⟨hm, ?_⟩)
              rw [pairValTail_cons x y z rest (by omega)] at hp
              exact hp
          rw [hrest]
    · intro out hout
      by_cases hv : 65535 < x + 45 * y + 45 * 45 * z
      · simp [b45groups, if_pos hv] at hout
      · rw [show b45groups (x :: y :: z :: rest) =
            (match b45groups rest with
              | none => none
              | some out => some ((x + 45 * y + 45 * 45 * z) / 256 ::
                  (x + 45 * y + 45 * 45 * z) % 256 :: out)) by
            simp [b45groups, if_neg hv]] at hout
        cases hr : b45groups rest with
        | none => rw [hr] at hout; simp at hout
        | some o =>
          rw [hr] at hout
          simp only [Option.some_inj] at hout
          subst hout
          obtain ⟨ho1, ho2⟩ := ih.2 o hr
          constructor
          · rw [show b45bytes (x :: y :: z :: rest) =
                (x + 45 * y + 45 * 45 * z) / 256 ::
                  (x + 45 * y + 45 * 45 * z) % 256 :: b45bytes rest from rfl, ho1]
          · rw [hdiv, hmod]
            simp only [List.length_cons, ho2]
            by_cases hm2 : rest.length % 3 = 2 <;> simp [hm2] <;> omega

theorem A2I_none_iff (c : Char) : A2I c = none ↔ c ∉ B45_ALPHABET := by
  unfold A2I
  rw [List.findIdx?_eq_none_iff]
  constructor
  · intro h hmem
    have := h c hmem
    simp at this
  · intro h x hx
    rw [beq_eq_false_iff_ne]
    intro hq
    exact h (hq ▸ hx)

theorem b45vals_spec (s : List Char) :
    (b45vals s = none ↔ ∃ c ∈ s, A2I c = none) ∧
    (∀ v, b45vals s = some v → v = s.map (fun c => (A2I c).getD 0)) := by
  induction s with
  | nil =>
    constructor
    · simp [b45vals]
    · intro v hval
      simp only [b45vals, Option.some_inj] at hval
      subst hval
      simp
  | cons c cs ih =>
    cases hA : A2I c with
    | none =>
      constructor
      · simp only [b45vals, hA]
        constructor
        · intro _
          exact ⟨c, List.mem_cons_self _ _, hA⟩
        · intro _
          cases b45vals cs <;> trivial
      · intro v hval
        simp only [b45vals, hA] at hval
        cases b45vals cs <;> simp at hval
    | some n =>
      cases hcs : b45vals cs with
      | none =>
        constructor
        · simp only [b45vals, hA, hcs]
          constructor
          · intro _
            obtain ⟨d, hd, hdn⟩ := ih.1.mp hcs
            exact ⟨d, List.mem_cons_of_mem _ hd, hdn⟩
          · intro _; trivial
        · intro v hval
          simp [b45vals, hA, hcs] at hval
      | some vs =>
        constructor
        · simp only [b45vals, hA, hcs]
          constructor
          · intro h; simp at h
          · rintro ⟨d, hd, hdn⟩
            rcases List.mem_cons.mp hd with hq | hq
            · rw [hq] at hdn
              rw [hdn] at hA
              simp at hA
            · exact absurd (ih.1.mpr ⟨d, hq, hdn⟩) (by rw [hcs]; simp)
        · intro v hval
          simp only [b45vals, hA, hcs, Option.some_inj] at hval
          subst hval
          rw [List.map_cons, ih.2 vs hcs, hA]
          rfl

/-- C5: the Base45 decoder fails exactly when the input contains a
character outside the 45-symbol alphabet, ends in a dangling single symbol
(length ≡ 1 mod 3), an aligned group of 3 symbols encodes a value above
0xFFFF, or the trailing group of 2 symbols encodes a value above 0xFF;
otherwise it returns, per RFC 9285, 2 bytes for each group of 3 symbols and
1 byte for a trailing group of 2 symbols. -/
theorem b45decode_spec (s : List Char) :
    (b45decode s = none ↔
      (∃ c ∈ s, c ∉ B45_ALPHABET) ∨ s.length % 3 = 1 ∨
      (∃ k, 3 * k + 2 < s.length ∧
        65535 < tripleVal (s.map (fun c => (A2I c).getD 0)) k) ∨
      (s.length % 3 = 2 ∧ 255 < pairValTail (s.map (fun c => (A2I c).getD 0)))) ∧
    (∀ out, b45decode s = some out →
      out = b45bytes (s.map (fun c => (A2I c).getD 0)) ∧
      out.length = 2 * (s.length / 3) + (if s.length % 3 = 2 then 1 else 0)) := by
  cases hv : b45vals s with
  | none =>
    have hdec : b45decode s = none := by simp [b45decode, hv]
    constructor
    · rw [hdec]
      constructor
      · intro _
        obtain ⟨c, hc, hcn⟩ := (b45vals_spec s).1.mp hv
        exact Or.inl ⟨c, hc, (A2I_none_iff c).mp hcn⟩
      · intro _; rfl
    · intro out hout
      rw [hdec] at hout
      exact absurd hout (by simp)
  | some vals =>
    have hvals : vals = s.map (fun c => (A2I c).getD 0) := (b45vals_spec s).2 vals hv
    have hlen : vals.length = s.length := by rw [hvals]; simp
    have hdec : b45decode s = b45groups vals := by simp [b45decode, hv]
    have hnochar : ¬ ∃ c ∈ s, c ∉ B45_ALPHABET := by
      rintro ⟨c, hc, hcn⟩
      have : b45vals s = none := (b45vals_spec s).1.mpr ⟨c, hc, (A2I_none_iff c).mpr hcn⟩
      rw [hv] at this
      exact absurd this (by simp)
    constructor
    · rw [hdec]
      rw [(b45groups_spec vals).1]
      rw [hvals]
      simp only [List.length_map]
      constructor
      · intro h
        exact Or.inr h
      · rintro (h | h)
        · exact absurd h hnochar
        · exact h
    · intro out hout
      rw [hdec] at hout
      obtain ⟨h1, h2⟩ := (b45groups_spec vals).2 out hout
      rw [hvals] at h1 h2
      simp only [List.length_map] at h2
      exact ⟨h1, h2⟩

/-- Witness for `b45decode_spec`: the token "BB8" decodes to the two bytes
of 11 + 45*11 + 45*45*8 = 16706, i.e. [65, 66]. -/
theorem b45decode_spec_witness :
    b45decode "BB8".data = some [65, 66] ∧
    ([65, 66] : List Nat).length =
      2 * ("BB8".data.length / 3) + (if "BB8".data.length % 3 = 2 then 1 else 0) :=
  ⟨by decide, ((b45decode_spec "BB8".data).2 [65, 66] (by decide)).2⟩

/-! ## SHA-256 (FIPS 180-4)

A concrete executable model of Python's `hashlib.sha256(x).digest()`, used
by `b58check_strip_and_verify` in src/modules/base58.py.  The round
constants are derived, as in the standard, from the fractional parts of the
cube roots (resp. square roots) of the first 64 (resp. 8) primes; the
implementation reproduces the standard test vectors
(SHA256("") = e3b0c442…, SHA256("abc") = ba7816bf…). -/

def M32 : Nat := 4294967296

def rotr32 (n x : Nat) : Nat := ((x >>> n) ||| (x <<< (32 - n))) % M32

def bigSigma0 (x : Nat) : Nat := rotr32 2 x ^^^ rotr32 13 x ^^^ rotr32 22 x

def bigSigma1 (x : Nat) : Nat := rotr32 6 x ^^^ rotr32 11 x ^^^ rotr32 25 x

def smallSigma0 (x : Nat) : Nat := rotr32 7 x ^^^ rotr32 18 x ^^^ (x >>> 3)

def smallSigma1 (x : Nat) : Nat := rotr32 17 x ^^^ rotr32 19 x ^^^ (x >>> 10)

def chFn (e f g : Nat) : Nat := (e &&& f) ^^^ ((e ^^^ 4294967295) &&& g)

def majFn (a b c : Nat) : Nat := (a &&& b) ^^^ (a &&& c) ^^^ (b &&& c)

/-- Integer cube root by binary search over 40 bits (enough for the
`prime * 2^96` arguments used below). -/
def icbrtBits (n : Nat) : Nat → Nat → Nat
  | 0, acc => acc
  | bit + 1, acc =>
    let t := acc + 2 ^ bit
    if t * t * t ≤ n then icbrtBits n bit t else icbrtBits n bit acc

def icbrt (n : Nat) : Nat := icbrtBits n 40 0

def SHA_PRIMES : List Nat :=
  [2, 3, 5, 7, 11, 13, 17, 19, 23, 29, 31, 37, 41, 43, 47, 53, 59, 61, 67, 71,
   73, 79, 83, 89, 97, 101, 103, 107, 109, 113, 127, 131, 137, 139, 149, 151,
   157, 163, 167, 173, 179, 181, 191, 193, 197, 199, 211, 223, 227, 229, 233,
   239, 241, 251, 257, 263, 269, 271, 277, 281, 283, 293, 307, 311]

/-- The 64 round constants: first 32 bits of the fractional parts of the
cube roots of the first 64 primes. -/
def SHA_K : List Nat := SHA_PRIMES.map (fun p => icbrt (p * 2 ^ 96) % M32)

/-- The initial hash value: first 32 bits of the fractional parts of the
square roots of the first 8 primes. -/
def SHA_H0 : List Nat := (SHA_PRIMES.take 8).map (fun p => Nat.sqrt (p * 2 ^ 64) % M32)

structure ShaState where
  a : Nat
  b : Nat
  c : Nat
  d : Nat
  e : Nat
  f : Nat
  g : Nat
  h : Nat

def shaRound (st : ShaState) (k : Nat) (w : Nat) : ShaState :=
  let t1 := (st.h + bigSigma1 st.e + chFn st.e st.f st.g + k + w) % M32
  let t2 := (bigSigma0 st.a + majFn st.a st.b st.c) % M32
  { a := (t1 + t2) % M32, b := st.a, c := st.b, d := st.c,
    e := (st.d + t1) % M32, f := st.e, g := st.f, h := st.g }

def schedule (block : List Nat) : List Nat :=
  (List.range 48).foldl (fun w _ =>
    w ++ [(smallSigma1 (w.getD (w.length - 2) 0) + w.getD (w.length - 7) 0 +
      smallSigma0 (w.getD (w.length - 15) 0) + w.getD (w.length - 16) 0) % M32]) block

def compress (st : ShaState) (block : List Nat) : ShaState :=
  let w := schedule block
  let r := (SHA_K.zip w).foldl (fun s kw => shaRound s kw.1 kw.2) st
  { a := (st.a + r.a) % M32, b := (st.b + r.b) % M32, c := (st.c + r.c) % M32,
    d := (st.d + r.d) % M32, e := (st.e + r.e) % M32, f := (st.f + r.f) % M32,
    g := (st.g + r.g) % M32, h := (st.h + r.h) % M32 }

def toBE8 (n : Nat) : List Nat :=
  [n / 2 ^ 56 % 256, n / 2 ^ 48 % 256, n / 2 ^ 40 % 256, n / 2 ^ 32 % 256,
   n / 2 ^ 24 % 256, n / 2 ^ 16 % 256, n / 2 ^ 8 % 256, n % 256]

def toBE4 (n : Nat) : List Nat :=
  [n / 2 ^ 24 % 256, n / 2 ^ 16 % 256, n / 2 ^ 8 % 256, n % 256]

/-- Merkle–Damgård padding: 0x80, zeros to 56 mod 64, 8-byte big-endian
bit length. -/
def sha_pad (msg : List Nat) : List Nat :=
  msg ++ [128] ++ List.replicate ((119 - msg.length % 64) % 64) 0 ++ toBE8 (8 * msg.length)

def wordsOfBytes : List Nat → List Nat
  | a :: b :: c :: d :: rest => (a * 2 ^ 24 + b * 2 ^ 16 + c * 2 ^ 8 + d) :: wordsOfBytes rest
  | _ => []

def blocksOfAux : Nat → List Nat → List (List Nat)
  | 0, _ => []
  | _, [] => []
  | fuel + 1, ws => ws.take 16 :: blocksOfAux fuel (ws.drop 16)

def blocksOf (ws : List Nat) : List (List Nat) := blocksOfAux ws.length ws

def sha256 (msg : List Nat) : List Nat :=
  let st0 : ShaState :=
    { a := SHA_H0.getD 0 0, b := SHA_H0.getD 1 0, c := SHA_H0.getD 2 0,
      d := SHA_H0.getD 3 0, e := SHA_H0.getD 4 0, f := SHA_H0.getD 5 0,
      g := SHA_H0.getD 6 0, h := SHA_H0.getD 7 0 }
  let st := (blocksOf (wordsOfBytes (sha_pad msg))).foldl compress st0
  toBE4 st.a ++ toBE4 st.b ++ toBE4 st.c ++ toBE4 st.d ++
    toBE4 st.e ++ toBE4 st.f ++ toBE4 st.g ++ toBE4 st.h

theorem sha256_length (msg : List Nat) : (sha256 msg).length = 32 := by
  unfold sha256
  simp [toBE4]

/-! ## Base58Check (src/modules/base58.py, lines 61-70)

    def b58check_strip_and_verify(raw: bytes) -> Tuple[bool, bytes]:
        if len(raw) < 5:
            return (False, raw)
        payload, checksum = raw[:-4], raw[-4:]
        calc = hashlib.sha256(hashlib.sha256(payload).digest()).digest()[:4]
        return (checksum == calc, payload)
-/

def b58check_strip_and_verify (raw : List Nat) : Bool × List Nat :=
  if raw.length < 5 then (false, raw)
  else
    ((raw.drop (raw.length - 4) == (sha256 (sha256 (raw.take (raw.length - 4)))).take 4),
      raw.take (raw.length - 4))

theorem b58check_append {q cc : List Nat} (hq : q ≠ []) (hc : cc.length = 4) :
    b58check_strip_and_verify (q ++ cc) =
      ((cc == (sha256 (sha256 q)).take 4), q) := by
  have hqpos : 0 < q.length := List.length_pos.mpr hq
  have hlen : (q ++ cc).length = q.length + 4 := by rw [List.length_append, hc]
  have h5 : ¬ ((q ++ cc).length < 5) := by omega
  have h4 : (q ++ cc).length - 4 = q.length := by omega
  unfold b58check_strip_and_verify
  rw [if_neg h5, h4, List.take_left, List.drop_left]

theorem xor_two_pow_ne (x b : Nat) : x ^^^ 2 ^ b ≠ x := by
  intro h
  have h2 : x ^^^ (x ^^^ 2 ^ b) = 2 ^ b := by
    rw [← Nat.xor_assoc, Nat.xor_self, Nat.zero_xor]
  rw [h, Nat.xor_self] at h2
  have := pow_pos (show 0 < 2 by omega) b
  omega

theorem getD_set_self {l : List Nat} {i : Nat} (h : i < l.length) (v : Nat) :
    (l.set i v).getD i 0 = v := by
  rw [List.getD_eq_getElem _ _ (by rw [List.length_set]; exact h)]
  exact List.getElem_set_self _

theorem set_flip_ne {l : List Nat} {i : Nat} (hi : i < l.length) (b : Nat) :
    l.set i (l.getD i 0 ^^^ 2 ^ b) ≠ l := by
  intro hq
  have h1 : (l.set i (l.getD i 0 ^^^ 2 ^ b)).getD i 0 = l.getD i 0 := by rw [hq]
  rw [getD_set_self hi] at h1
  exact xor_two_pow_ne (l.getD i 0) b h1

/-- Boundary behaviour of Base58Check: for the empty payload, the
concatenation with its correct 4-byte double-SHA-256 checksum has length
4 < 5, so verification returns `false` rather than succeeding. -/
theorem b58check_empty_payload_fails :
    (b58check_strip_and_verify (([] : List Nat) ++ (sha256 (sha256 [])).take 4)).1
      = false := by
  have hlen : ((([] : List Nat) ++ (sha256 (sha256 [])).take 4)).length < 5 := by
    rw [List.nil_append, List.length_take]
    omega
  unfold b58check_strip_and_verify
  rw [if_pos hlen]

/-- Base58Check mechanics: for every nonempty payload, verification
succeeds on the payload concatenated with the first 4 bytes of the double
SHA-256 of the payload and returns the checksum-stripped payload; flipping
any single bit of the 4-byte checksum makes verification fail; and flipping
a single bit of a payload byte makes verification fail exactly when the
altered payload's 4-byte double-hash prefix differs from the original
checksum. -/
theorem b58check_spec (p : List Nat) (hp : p ≠ []) (c : List Nat)
    (hc : c = (sha256 (sha256 p)).take 4) :
    b58check_strip_and_verify (p ++ c) = (true, p) ∧
    (∀ i, i < 4 → ∀ b, b < 8 →
      (b58check_strip_and_verify (p ++ c.set i (c.getD i 0 ^^^ 2 ^ b))).1 = false) ∧
    (∀ i, i < p.length → ∀ b, b < 8 →
      ((b58check_strip_and_verify (p.set i (p.getD i 0 ^^^ 2 ^ b) ++ c)).1 = true ↔
        (sha256 (sha256 (p.set i (p.getD i 0 ^^^ 2 ^ b)))).take 4 = c)) := by
  have hclen : c.length = 4 := by
    rw [hc, List.length_take, sha256_length]
    decide
  refine ⟨?_, ?_, ?_⟩
  · rw [b58check_append hp hclen, ← hc]
    rw [beq_self_eq_true]
  · intro i hi4 b _
    have hi : i < c.length := by omega
    have hlen' : (c.set i (c.getD i 0 ^^^ 2 ^ b)).length = 4 := by
      rw [List.length_set]; exact hclen
    rw [b58check_append hp hlen', ← hc]
    exact beq_eq_false_iff_ne.mpr (set_flip_ne hi b)
  · intro i hip b _
    have hp' : p.set i (p.getD i 0 ^^^ 2 ^ b) ≠ [] := by
      intro hq
      have := congrArg List.length hq
      rw [List.length_set] at this
      simp at this
      exact hp this
    rw [b58check_append hp' hclen]
    constructor
    · intro h
      exact (beq_iff_eq.mp h).symm
    · intro h
      exact beq_iff_eq.mpr h.symm

/-- Witness for `b58check_spec`: the one-byte payload [72]. -/
theorem b58check_spec_witness :
    b58check_strip_and_verify ([72] ++ (sha256 (sha256 [72])).take 4) =
      (true, [72]) :=
  (b58check_spec [72] (by decide) ((sha256 (sha256 [72])).take 4) rfl).1

/-! ## Base64 family (src/modules/base64.py, lines 29-53)

    def _autopad(s: str) -> str:
        m = len(s) % 4
        return s if m == 0 else s + "=" * (4 - m)

    def _decode_once(s: str) -> List[Tuple[str, bytes]]:
        outs=[]
        # Hex
        try:
            if all(c in string.hexdigits for c in s) and len(s)%2==0:
                outs.append(("hex", bytes.fromhex(s)))
        except Exception:
            pass
        # Base families (be permissive with padding)
        for name, fn in [
            ("base64", base64.b64decode),
            ("urlsafe_b64", base64.urlsafe_b64decode),
            ("base32", base64.b32decode),
            ("a85", base64.a85decode),
            ("b85", base64.b85decode),
        ]:
            try:
                outs.append((name, fn(_autopad(s))))
            except Exception:
                continue
        return outs

The five standard-library decoders are external collaborators; they are
modelled as an explicit parameter list of fallible functions
(`name, List Char → Option (List Nat)`), with a raised exception modelled
as `none`. -/

def _autopad (s : List Char) : List Char :=
  if s.length % 4 = 0 then s else s ++ List.replicate (4 - s.length % 4) '='

/-- Python's `string.hexdigits` membership: 0-9, a-f, A-F. -/
def isHexDigitPy (c : Char) : Bool :=
  py_isdigit c || (97 ≤ c.toNat && c.toNat ≤ 102) || (65 ≤ c.toNat && c.toNat ≤ 70)

def hexVal (c : Char) : Nat :=
  if py_isdigit c then c.toNat - 48
  else if 97 ≤ c.toNat then c.toNat - 87
  else c.toNat - 55

/-- Python's `bytes.fromhex` on an even-length all-hex string. -/
def fromHex : List Char → List Nat
  | a :: b :: rest => (16 * hexVal a + hexVal b) :: fromHex rest
  | _ => []

def _decode_once (fns : List (String × (List Char → Option (List Nat))))
    (s : List Char) : List (String × List Nat) :=
  (if s.all isHexDigitPy ∧ s.length % 2 = 0 then [("hex", fromHex s)] else []) ++
  fns.foldl (fun outs nf =>
    match nf.2 (_autopad s) with
    | some bts => outs ++ [(nf.1, bts)]
    | none => outs) []

/-- Modelled from the claim: padding a token with `'='` to the stated
required length boundary of an encoding (4 for Base64, 8 for Base32). -/
def pad_to_boundary (boundary : Nat) (s : List Char) : List Char :=
  if s.length % boundary = 0 then s
  else s ++ List.replicate (boundary - s.length % boundary) '='

theorem _decode_once_foldl (s : List Char)
    (fns : List (String × (List Char → Option (List Nat)))) :
    ∀ acc, fns.foldl (fun outs nf =>
        match nf.2 (_autopad s) with
        | some bts => outs ++ [(nf.1, bts)]
        | none => outs) acc =
      acc ++ fns.filterMap (fun nf => (nf.2 (_autopad s)).map (fun bts => (nf.1, bts))) := by
  induction fns with
  | nil => intro acc; simp
  | cons nf rest ih =>
    intro acc
    rw [List.foldl_cons, List.filterMap_cons]
    cases hf : nf.2 (_autopad s) with
    | none => rw [ih acc]; rfl
    | some bts =>
      rw [ih (acc ++ [(nf.1, bts)])]
      simp

theorem _autopad_mod (s : List Char) : (_autopad s).length % 4 = 0 := by
  unfold _autopad
  by_cases h : s.length % 4 = 0
  · rw [if_pos h]; exact h
  · rw [if_neg h]
    rw [List.length_append, List.length_replicate]
    omega

theorem _autopad_append (s : List Char) :
    ∃ pad, _autopad s = s ++ pad ∧ ∀ ch ∈ pad, ch = '=' := by
  unfold _autopad
  by_cases h : s.length % 4 = 0
  · rw [if_pos h]
    exact ⟨[], by simp⟩
  · rw [if_neg h]
    refine ⟨List.replicate (4 - s.length % 4) '=', rfl, ?_⟩
    intro ch hch
    exact List.eq_of_mem_replicate hch

/-- C4 (amended): every decoder of the Base64 family list is attempted
independently on the candidate token, each receiving the same token padded
with `'='` to a multiple of 4 — Base64's boundary — regardless of the
encoding's own boundary; hex is attempted on the unpadded token when it is
all hex digits of even length. -/
theorem _decode_once_spec (fns : List (String × (List Char → Option (List Nat))))
    (s : List Char) :
    _decode_once fns s =
      (if s.all isHexDigitPy ∧ s.length % 2 = 0 then [("hex", fromHex s)] else []) ++
      fns.filterMap (fun nf => (nf.2 (_autopad s)).map (fun bts => (nf.1, bts))) ∧
    (_autopad s).length % 4 = 0 ∧
    ∃ pad, _autopad s = s ++ pad ∧ ∀ ch ∈ pad, ch = '=' := by
  refine ⟨?_, _autopad_mod s, _autopad_append s⟩
  unfold _decode_once
  rw [_decode_once_foldl s fns []]
  rfl

/-- Counterexample to C4 as stated: the token handed to the Base32 decoder
is `_autopad "MF" = "MF=="` (a multiple of 4), not the token padded to
Base32's required 8-boundary, `"MF======"`.  (Python's `b32decode` rejects
`"MF=="`, whose length is not a multiple of 8, so the Base32 attempt is
lost.)  The Base32 decoder slot is instantiated with an observer function
that returns the code points of the token it receives. -/
theorem _decode_once_base32_boundary :
    _decode_once [("base32", fun t => some (t.map Char.toNat))] "MF".data =
      [("base32", "MF==".data.map Char.toNat)] ∧
    _autopad "MF".data ≠ pad_to_boundary 8 "MF".data := by
  constructor
  · decide
  · decide

/-! ## The fitness scorer (src/modules/common.py)

`common.py` defines `fitness` twice.  The first definition (lines 179-217)
applies length damping `min(1, n/16)`, flat penalties for short strings, a
wordness term, control/tail penalties, and a 0.6 printability factor; it is
modelled below as `fitness_shadowed`.  The second definition (lines
239-249) textually shadows the first at import time — it is the operative
one — and has none of the length logic and a 0.5 printability factor; it is
modelled as `fitness` (split into the accumulated `fitness_base` and the
final printability scaling, mirroring the `base` accumulator). -/

def ENG_FREQ : List (Char × ℚ) :=
  [('A', 812/100), ('B', 149/100), ('C', 271/100), ('D', 432/100),
   ('E', 1202/100), ('F', 230/100), ('G', 203/100), ('H', 592/100),
   ('I', 731/100), ('J', 10/100), ('K', 69/100), ('L', 398/100),
   ('M', 261/100), ('N', 695/100), ('O', 768/100), ('P', 182/100),
   ('Q', 11/100), ('R', 602/100), ('S', 628/100), ('T', 910/100),
   ('U', 288/100), ('V', 111/100), ('W', 209/100), ('X', 17/100),
   ('Y', 211/100), ('Z', 7/100)]

def AZ : List Char := "ABCDEFGHIJKLMNOPQRSTUVWXYZ".data

def countc (c : Char) (l : List Char) : Nat := (l.filter (fun x => x == c)).length

/-- The `[ch for ch in t.upper() if 'A' <= ch <= 'Z']` preprocessing shared
by `chi_square_english` and `index_of_coincidence`. -/
def upperLetters (t : String) : List Char :=
  (t.data.map py_toupper).filter (fun c => 65 ≤ c.toNat && c.toNat ≤ 90)

def chi_square_english (t : String) : ℚ :=
  let tU := upperLetters t
  let total := tU.length
  if total = 0 then 0
  else
    let chi := ENG_FREQ.foldl (fun acc p =>
      let exp := (total : ℚ) * (p.2 / 100)
      if 0 < exp then acc + ((countc p.1 tU : ℚ) - exp) ^ 2 / exp else acc) 0
    1 / (1 + chi)

def index_of_coincidence (t : String) : ℚ :=
  let tU := upperLetters t
  let n := tU.length
  if n < 2 then 0
  else
    let num := AZ.foldl (fun acc c => acc + countc c tU * (countc c tU - 1)) 0
    let ic : ℚ := (num : ℚ) / ((n : ℚ) * ((n : ℚ) - 1))
    max 0 (1 - |ic - 66/1000| / (66/1000))

def BIGRAMS : List String :=
  ["th", "he", "in", "er", "an", "re", "on", "at", "en", "nd", "ti", "es",
   "or", "te", "of", "ed", "is", "it", "al", "ar", "st", "to", "nt", "ng",
   "se", "ha", "as", "ou", "io", "le", "ve", "co", "me", "de", "hi", "ri", "ro"]

def TRIGRAMS : List String :=
  ["the", "and", "ing", "her", "hat", "his", "tha", "ere", "for", "ent",
   "ion", "ter", "you", "thi", "not", "are", "all", "wit", "ver"]

def TETRA : List String :=
  ["TION", "ATIO", "NTHE", "THED", "THAT", "THER", "HERE", "ETHE"]

def countBi : List Char → Nat
  | a :: b :: rest => (if String.mk [a, b] ∈ BIGRAMS then 1 else 0) + countBi (b :: rest)
  | _ => 0

def countTri : List Char → Nat
  | a :: b :: c :: rest =>
    (if String.mk [a, b, c] ∈ TRIGRAMS then 1 else 0) + countTri (b :: c :: rest)
  | _ => 0

def countTetra : List Char → Nat
  | a :: b :: c :: d :: rest =>
    (if String.mk [a, b, c, d] ∈ TETRA then 1 else 0) + countTetra (b :: c :: d :: rest)
  | _ => 0

/-- ngram_hits (src/modules/common.py, lines 165-170); note the source
checks the lowercased text against the uppercase `TETRA` set, so the
tetragram term is kept exactly as written. -/
def ngram_hits (t : String) : ℚ :=
  let tl := t.data.map py_tolower
  (countBi tl : ℚ) * (6/10) + (countTri tl : ℚ) * 1 + (countTetra tl : ℚ) * (3/2)

def hasDoubleEq : List Char → Bool
  | a :: b :: rest => (a == '=' && b == '=') || hasDoubleEq (b :: rest)
  | _ => false

def _charclass_score (t : String) : ℚ :=
  let n := t.data.length
  if n = 0 then 0
  else
    let letters := (t.data.filter py_isalpha).length
    let digits := (t.data.filter py_isdigit).length
    let spaces := countc ' ' t.data
    let unders := countc '_' t.data
    let hyphens := countc '-' t.data
    let others := n - (letters + digits + spaces + unders + hyphens)
    ((letters : ℚ) / n) * (22/10) - ((digits : ℚ) / n) * (9/10) -
      ((others : ℚ) / n) * (22/10) - (if hasDoubleEq t.data then 3/2 else 0)

def snakeAux : Char → List Char → List Char
  | _, [] => []
  | prev, ch :: rest =>
    (if py_islower prev && py_isupper ch then ['_', ch] else [ch]) ++ snakeAux ch rest

def snake_from_camel (s : String) : String :=
  match s.data with
  | [] => String.mk []
  | c :: rest => String.mk ((c :: snakeAux c rest).map py_tolower)

def py_lower (t : String) : String := String.mk (t.data.map py_tolower)

/-- Membership in Python's `string.printable` (ASCII 32..126 plus
tab/newline/return/vertical-tab/form-feed). -/
def py_printable (c : Char) : Bool :=
  (32 ≤ c.toNat && c.toNat ≤ 126) || c.toNat == 9 || c.toNat == 10 ||
    c.toNat == 13 || c.toNat == 11 || c.toNat == 12

def is_mostly_printable (s : String) : Prop :=
  ((s.data.filter py_printable).length : ℚ) / (max 1 s.data.length) ≥ 9/10

instance (s : String) : Decidable (is_mostly_printable s) := by
  unfold is_mostly_printable
  infer_instance

/-- The `base` accumulator of the operative `fitness` (the second
definition, src/modules/common.py lines 239-249), before the printability
scaling. -/
def fitness_base (t : String) : ℚ :=
  chi_square_english t * 3 + index_of_coincidence t * (5/2) +
    ngram_hits t * (12/10) + _charclass_score t * (13/10) +
    (if snake_from_camel t ≠ py_lower t then ngram_hits (snake_from_camel t) * (8/10) else 0) +
    ((countc ' ' t.data : ℚ) + (countc '_' t.data : ℚ)) * (1/10)

/-- The operative `fitness` (the second, shadowing definition at
src/modules/common.py lines 239-249). -/
def fitness (t : String) : ℚ :=
  if is_mostly_printable t then fitness_base t else fitness_base t * (5/10)

def charRunsGo (p : Char → Bool) (cur : List Char) : List Char → List (List Char)
  | [] => if cur.isEmpty then [] else [cur.reverse]
  | c :: rest =>
    if p c then charRunsGo p (c :: cur) rest
    else if cur.isEmpty then charRunsGo p [] rest
    else cur.reverse :: charRunsGo p [] rest

/-- Maximal runs of characters satisfying `p`: the matches of the regex
`[p]+` used via `re.findall` in the source. -/
def charRuns (p : Char → Bool) (l : List Char) : List (List Char) := charRunsGo p [] l

def VOWELS : List Char := "aeiouAEIOU".data

/-- _wordness_score (src/modules/common.py, lines 37-54): `[A-Za-z]{3,}`
matches are the maximal alphabetic runs of length at least 3. -/
def _wordness_score (t : String) : ℚ :=
  let s := t.data.map (fun c =>
    if c = '_' ∨ c = '+' ∨ c = '-' ∨ c = '/' then ' ' else c)
  let toks := (charRuns py_isalpha s).filter (fun w => 3 ≤ w.length)
  if toks = [] then 0
  else
    let tok_score : ℚ := (toks.length : ℚ) * (8/10)
    let vowel_score : ℚ := (toks.map (fun w =>
      let v : ℚ := ((w.filter (fun c => c ∈ VOWELS)).length : ℚ) / (max 1 w.length)
      max 0 (1 - |v - 45/100| / (45/100)))).sum * (5/10)
    tok_score + vowel_score

def _control_penalty (t : String) : ℚ :=
  let ctrls := (t.data.filter (fun c =>
    (c.toNat < 32 && !(c == '\n' || c == '\t' || c == '\r')) || c.toNat == 127)).length
  Neg.neg (min 3 ((ctrls : ℚ) * (9/10)))

def tailTokClass (c : Char) : Bool :=
  py_isalpha c || py_isdigit c || c == '+' || c == '-' || c == '_'

/-- _tail_noise_penalty (src/modules/common.py, lines 56-64):
`re.fullmatch(r"[A-Z]{2,5}", last)` is: length 2..5, all uppercase. -/
def _tail_noise_penalty (t : String) : ℚ :=
  match (charRuns tailTokClass t.data).getLast? with
  | none => 0
  | some last =>
    if 2 ≤ last.length ∧ last.length ≤ 5 ∧ last.all py_isupper then -1 else 0

/-- The first, shadowed `fitness` definition (src/modules/common.py,
lines 179-217), with its length damping and short-string penalties; dead
code in the source because the second definition replaces it, but it is
the behaviour the spec describes. -/
def fitness_shadowed (t : String) : ℚ :=
  let n := t.data.length
  let len_fac : ℚ := min 1 ((n : ℚ) / 16)
  let base1 := (chi_square_english t * 3 + index_of_coincidence t * (5/2) +
      ngram_hits t * (12/10) + _charclass_score t * (13/10)) * len_fac +
    _wordness_score t * (6/10) * len_fac +
    ((countc ' ' t.data : ℚ) + (countc '_' t.data : ℚ) + (countc '+' t.data : ℚ)) * (15/100)
  let base2 := if n < 4 then base1 - ((4 - n : Nat) : ℚ) * 2 else base1
  let base3 := if n ≤ 2 then base2 - 4 else base2
  let base4 := base3 + _control_penalty t
  let base5 := if is_mostly_printable t then base4 else base4 * (6/10)
  let base6 := if snake_from_camel t ≠ py_lower t then
      base5 + ngram_hits (snake_from_camel t) * (6/10) * len_fac
    else base5
  base6 + _tail_noise_penalty t

theorem chi_fold_nonneg (tU : List Char) (total : Nat) (l : List (Char × ℚ)) :
    ∀ acc : ℚ, 0 ≤ acc →
      0 ≤ l.foldl (fun acc p =>
        let exp := (total : ℚ) * (p.2 / 100)
        if 0 < exp then acc + ((countc p.1 tU : ℚ) - exp) ^ 2 / exp else acc) acc := by
  induction l with
  | nil => intro acc h; exact h
  | cons p rest ih =>
    intro acc h
    rw [List.foldl_cons]
    apply ih
    dsimp only
    by_cases hx : 0 < (total : ℚ) * (p.2 / 100)
    · rw [if_pos hx]
      have hd : 0 ≤ ((countc p.1 tU : ℚ) - (total : ℚ) * (p.2 / 100)) ^ 2 /
          ((total : ℚ) * (p.2 / 100)) := div_nonneg (sq_nonneg _) (le_of_lt hx)
      linarith
    · rw [if_neg hx]; exact h

theorem chi_square_english_nonneg (t : String) : 0 ≤ chi_square_english t := by
  unfold chi_square_english
  by_cases h : (upperLetters t).length = 0
  · rw [if_pos h]
  · rw [if_neg h]
    have hc := chi_fold_nonneg (upperLetters t) (upperLetters t).length ENG_FREQ 0 le_rfl
    have : (0:ℚ) < 1 + ENG_FREQ.foldl (fun acc p =>
        let exp := ((upperLetters t).length : ℚ) * (p.2 / 100)
        if 0 < exp then acc + ((countc p.1 (upperLetters t) : ℚ) - exp) ^ 2 / exp
        else acc) 0 := by linarith
    positivity

theorem chi_square_english_le_one (t : String) : chi_square_english t ≤ 1 := by
  unfold chi_square_english
  by_cases h : (upperLetters t).length = 0
  · rw [if_pos h]; norm_num
  · rw [if_neg h]
    have hc := chi_fold_nonneg (upperLetters t) (upperLetters t).length ENG_FREQ 0 le_rfl
    rw [div_le_one (by linarith)]
    linarith

/-- C2 (code bug): the operative scorer — the second `fitness` definition,
which shadows the first — applies no `min(1, n/16)` damping and no
short-string penalties, so the one-character string "E" scores positive;
the shadowed first definition (the behaviour the spec describes) scores it
negative. -/
theorem fitness_shadowing_bug :
    0 < fitness "E" ∧ fitness_shadowed "E" < 0 := by
  have hU : upperLetters "E" = ['E'] := by decide
  have hic : index_of_coincidence "E" = 0 := by
    unfold index_of_coincidence
    rw [hU]
    norm_num
  have hb1 : countBi ("E".data.map py_tolower) = 0 := by decide
  have hb2 : countTri ("E".data.map py_tolower) = 0 := by decide
  have hb3 : countTetra ("E".data.map py_tolower) = 0 := by decide
  have hngr : ngram_hits "E" = 0 := by
    simp only [ngram_hits]
    rw [hb1, hb2, hb3]
    norm_num
  have hlen : "E".data.length = 1 := by decide
  have hal : ("E".data.filter py_isalpha).length = 1 := by decide
  have hdg : ("E".data.filter py_isdigit).length = 0 := by decide
  have hsp : countc ' ' "E".data = 0 := by decide
  have hun : countc '_' "E".data = 0 := by decide
  have hhy : countc '-' "E".data = 0 := by decide
  have hpl : countc '+' "E".data = 0 := by decide
  have heq2 : hasDoubleEq "E".data = false := by decide
  have hcls : _charclass_score "E" = 22/10 := by
    simp only [_charclass_score]
    rw [hlen, hal, hdg, hsp, hun, hhy, heq2]
    norm_num
  have hsnake : snake_from_camel "E" = py_lower "E" := by decide
  have hprint : is_mostly_printable "E" := by
    unfold is_mostly_printable
    have h1 : ("E".data.filter py_printable).length = 1 := by decide
    rw [h1, hlen]
    norm_num
  have hchi0 := chi_square_english_nonneg "E"
  have hchi1 := chi_square_english_le_one "E"
  constructor
  · unfold fitness
    rw [if_pos hprint]
    unfold fitness_base
    rw [hic, hngr, hcls, hsp, hun, if_neg (fun hq => hq hsnake)]
    nlinarith
  · simp only [fitness_shadowed]
    rw [hlen, hic, hngr, hcls, hsp, hun, hpl]
    have htoks : ((charRuns py_isalpha ("E".data.map (fun c =>
        if c = '_' ∨ c = '+' ∨ c = '-' ∨ c = '/' then ' ' else c))).filter
        (fun w => 3 ≤ w.length)) = [] := by decide
    have hwrd : _wordness_score "E" = 0 := by
      simp only [_wordness_score]
      rw [htoks]
      norm_num
    have hctl : _control_penalty "E" = 0 := by
      simp only [_control_penalty]
      have h1 : ("E".data.filter (fun c =>
        (c.toNat < 32 && !(c == '\n' || c == '\t' || c == '\r')) ||
          c.toNat == 127)).length = 0 := by decide
      rw [h1]
      norm_num
    have hruns : (charRuns tailTokClass "E".data).getLast? = some ['E'] := by decide
    have htail : _tail_noise_penalty "E" = 0 := by
      simp only [_tail_noise_penalty]
      rw [hruns]
      norm_num
    rw [hwrd, hctl, htail, if_pos hprint, if_neg (fun hq => hq hsnake)]
    have hmin : min (1:ℚ) ((1 : ℚ) / 16) = 1/16 := by norm_num
    rw [Nat.cast_one, hmin]
    rw [if_pos (by norm_num : (1:Nat) < 4), if_pos (by norm_num : (1:Nat) ≤ 2)]
    nlinarith

/-- C9 (code bug): on a string with fewer than 90% printable characters the
operative scorer multiplies the accumulated score by 0.5, not by the
specified 0.6 (the 0.6 factor lives only in the shadowed first `fitness`
definition). -/
theorem fitness_printability_factor_bug :
    ¬ is_mostly_printable "________\x00\x01" ∧
    fitness "________\x00\x01" = fitness_base "________\x00\x01" * (5/10) ∧
    fitness "________\x00\x01" ≠ fitness_base "________\x00\x01" * (6/10) := by
  have hlen : "________\x00\x01".data.length = 10 := by decide
  have hpr : ("________\x00\x01".data.filter py_printable).length = 8 := by decide
  have hnp : ¬ is_mostly_printable "________\x00\x01" := by
    unfold is_mostly_printable
    rw [hpr, hlen]
    norm_num
  have hU : upperLetters "________\x00\x01" = [] := by decide
  have hchi : chi_square_english "________\x00\x01" = 0 := by
    unfold chi_square_english
    rw [hU]
    norm_num
  have hic : index_of_coincidence "________\x00\x01" = 0 := by
    unfold index_of_coincidence
    rw [hU]
    norm_num
  have hb1 : countBi ("________\x00\x01".data.map py_tolower) = 0 := by decide
  have hb2 : countTri ("________\x00\x01".data.map py_tolower) = 0 := by decide
  have hb3 : countTetra ("________\x00\x01".data.map py_tolower) = 0 := by decide
  have hngr : ngram_hits "________\x00\x01" = 0 := by
    simp only [ngram_hits]
    rw [hb1, hb2, hb3]
    norm_num
  have hal : ("________\x00\x01".data.filter py_isalpha).length = 0 := by decide
  have hdg : ("________\x00\x01".data.filter py_isdigit).length = 0 := by decide
  have hsp : countc ' ' "________\x00\x01".data = 0 := by decide
  have hun : countc '_' "________\x00\x01".data = 8 := by decide
  have hhy : countc '-' "________\x00\x01".data = 0 := by decide
  have heq2 : hasDoubleEq "________\x00\x01".data = false := by decide
  have hcls : _charclass_score "________\x00\x01" = -(44/100) := by
    simp only [_charclass_score]
    rw [hlen, hal, hdg, hsp, hun, hhy, heq2]
    norm_num
  have hsnake : snake_from_camel "________\x00\x01" = py_lower "________\x00\x01" := by
    decide
  have hfb : fitness_base "________\x00\x01" = 228/1000 := by
    unfold fitness_base
    rw [hchi, hic, hngr, hcls, hsp, hun, if_neg (fun hq => hq hsnake)]
    norm_num
  refine ⟨hnp, ?_, ?_⟩
  · unfold fitness
    rw [if_neg hnp]
  · unfold fitness
    rw [if_neg hnp, hfb]
    norm_num

end J4f
